import Mathlib

/-
  Verification of the pythereum ledger core (blockchain.py).

  The embedding mirrors the Python source.  Python dicts are modelled as
  association lists in insertion order: lookup finds the first matching key,
  assignment replaces the value in place when the key is present and appends
  otherwise, and iteration over values follows the list order.  Python
  unbounded integers are Int, optional values are Option, and raised
  exceptions are Except errors.  The sha256 hexdigest is modelled by an
  injective, deterministic stand-in; the development relies only on the
  digest being deterministic and collision-free on distinct serializations,
  which is what the specification itself assumes.
-/

namespace Pythereum

deriving instance DecidableEq for Except

/-- storage is a Python dict from string keys to string values. -/
abbrev Storage := List (String × String)

/-- First-match lookup, as Python dict subscript access (keys are unique in
any dict produced by Python, so first-match agrees with dict lookup). -/
def dictLookup {α : Type} : List (String × α) → String → Option α
  | [], _ => none
  | (k, v) :: rest, key => if k = key then some v else dictLookup rest key

/-- Python `key in dict`. -/
def dictContains {α : Type} (l : List (String × α)) (key : String) : Bool :=
  (dictLookup l key).isSome

/-- Replacement of the value stored under a present key. -/
def dictReplace {α : Type} (l : List (String × α)) (key : String) (v : α) :
    List (String × α) :=
  l.map (fun p => if p.1 = key then (key, v) else p)

/-- Python `d[key] = v`: replace in place when the key is present, append
otherwise (dicts preserve insertion order). -/
def dictInsert {α : Type} (l : List (String × α)) (key : String) (v : α) :
    List (String × α) :=
  if dictContains l key then dictReplace l key v
  else l ++ [(key, v)]

/-- In-place mutation of the object stored at `key` (Python field update on
the object obtained from the dict). -/
def dictUpdate {α : Type} (l : List (String × α)) (key : String) (f : α → α) :
    List (String × α) :=
  l.map (fun p => if p.1 = key then (p.1, f p.2) else p)

/-- Stand-in for `sha256(s).hexdigest()`: deterministic and injective. -/
def sha256hex (s : String) : String := "#sha256:" ++ s

/-- Python `str` on an optional string: `str(None)` is `"None"`. -/
def pyStrOpt : Option String → String
  | none => "None"
  | some s => s

/-- Python `str` on a string-to-string dict, e.g. `\x7b\x27foo\x27: \x27bar\x27\x7d`. -/
def pyStrDict (d : Storage) : String :=
  "\x7b" ++
    String.intercalate ", "
      (d.map (fun p => "\x27" ++ p.1 ++ "\x27: \x27" ++ p.2 ++ "\x27")) ++
  "\x7d"

/-- Account, from class Account in blockchain.py. -/
structure Account where
  address : String
  nonce : Int
  balance : Int
  code : Option String
  storage : Storage
  creation_tx_hash : Option String
deriving DecidableEq

/-- `Account.__str__`: note that `creation_tx_hash` does not appear. -/
def Account.str (a : Account) : String :=
  (if a.code = none then "" else "Contract ") ++
    "Account: " ++ a.address ++
    "\nNonce: " ++ toString a.nonce ++ ", Balance: " ++ toString a.balance ++
    "\nCode: " ++ pyStrOpt a.code ++
    "\nStorage: " ++ pyStrDict a.storage ++ "\n"

/-- The world state: a dict from address to Account, in insertion order. -/
structure WorldState where
  accounts : List (String × Account)
deriving DecidableEq

/-- `WorldState.__str__`: the account strings joined by newlines, in dict
iteration (= insertion) order. -/
def WorldState.str (s : WorldState) : String :=
  String.intercalate "\n" (s.accounts.map (fun p => p.2.str))

/-- `WorldState.signature`. -/
def WorldState.signature (s : WorldState) : String := s.str

/-- Transaction, from class Transaction in blockchain.py. -/
structure Transaction where
  sender_addr : String
  receiver_addr : Option String
  nonce : Int
  amount : Int
  data : Option String
deriving DecidableEq

/-- `Transaction.__str__`: formats sender_addr, receiver_addr, amount and
data; the nonce is not part of the serialization. -/
def Transaction.str (t : Transaction) : String :=
  t.sender_addr ++ "," ++ pyStrOpt t.receiver_addr ++ "," ++
    toString t.amount ++ "," ++ pyStrOpt t.data

/-- `Transaction.hash`. -/
def Transaction.hash (t : Transaction) : String := sha256hex t.str

/-- The failure conditions the core can raise.  `unknownSender` and
`keyError` are Python KeyError on dict subscripting; the others are the
explicit `raise Exception(...)` sites; `missingAncestor` is the KeyError on
`self.blocks[block.prev_block_hash]`; `outOfFuel` is the recursion-depth
bound of the embedding. -/
inductive Err where
  | unknownSender
  | nonceMismatch
  | insufficientBalance
  | missingContractCode
  | missingAncestor (h : String)
  | keyError
  | outOfFuel
deriving DecidableEq

/-- `BlockChain.apply_transaction` (the method reads no engine state).  The
first line of the source rebinds `state` to a deep copy, so the function is
a pure map from the input state value to a result; the heap model below
(`applyTransactionRef`) captures the mutation discipline itself.  The
opaque `exec` of contract code is the parameter `execCode`, an effect on the
receiver account storage. -/
def apply_transaction (execCode : String → Storage → Storage)
    (state : WorldState) (tx : Transaction) : Except Err WorldState :=
  match dictLookup state.accounts tx.sender_addr with
  | none => .error .unknownSender
  | some sender_account =>
    if tx.nonce ≠ sender_account.nonce then .error .nonceMismatch
    else if sender_account.balance < tx.amount then .error .insufficientBalance
    else
      match tx.receiver_addr with
      | none =>
        match tx.data with
        | none => .error .missingContractCode
        | some d =>
          let new_contract : Account :=
            ⟨sha256hex d, 0, 0, some d, [], some tx.hash⟩
          .ok ⟨dictInsert state.accounts new_contract.address new_contract⟩
      | some raddr =>
        let accounts :=
          if dictContains state.accounts raddr then state.accounts
          else dictInsert state.accounts raddr ⟨raddr, 0, 0, none, [], some tx.hash⟩
        let accounts :=
          dictUpdate accounts tx.sender_addr
            (fun a => { a with balance := a.balance - tx.amount })
        match dictLookup accounts raddr with
        | none => .error .keyError
        | some receiver_account =>
          let accounts :=
            dictUpdate accounts raddr
              (fun a => { a with balance := a.balance + tx.amount })
          match receiver_account.code with
          | none => .ok ⟨accounts⟩
          | some c =>
            .ok ⟨dictUpdate accounts raddr
              (fun a => { a with storage := execCode c a.storage })⟩

/-- Block, from class Block in blockchain.py.  `transactions` is the dict
from transaction hash to transaction. -/
structure Block where
  transactions : List (String × Transaction)
  prev_block_hash : String
  end_state_signature : String
deriving DecidableEq

/-- `Block.__str__`. -/
def Block.str (b : Block) : String :=
  b.prev_block_hash ++ "\t" ++ b.end_state_signature ++ "\t" ++
    String.intercalate "\t" (b.transactions.map (fun p => p.2.str))

/-- `Block.hash`. -/
def Block.hash (b : Block) : String := sha256hex b.str

def ROOT_ACCOUNT_ADDR : String := "0xdeadbeef"

def PRE_GENESIS_BLOCK_HASH : String := "00000000"

/-- `BlockChain.genesis_world_state`. -/
def genesis_world_state : WorldState :=
  ⟨[(ROOT_ACCOUNT_ADDR, ⟨ROOT_ACCOUNT_ADDR, 0, 1000, none, [], none⟩)]⟩

/-- `BlockChain.genesis_block`. -/
def genesis_block : Block :=
  ⟨[], PRE_GENESIS_BLOCK_HASH, genesis_world_state.signature⟩

/-- The mutable engine state of class BlockChain. -/
structure BlockChain where
  blocks : List (String × Block)
  tx_queue : List (String × Transaction)
deriving DecidableEq

/-- `BlockChain.__init__`. -/
def BlockChain.init : BlockChain :=
  ⟨[(genesis_block.hash, genesis_block)], []⟩

/-- `BlockChain.enqueue_transaction`. -/
def enqueue_transaction (c : BlockChain) (tx : Transaction) : BlockChain :=
  { c with tx_queue := dictInsert c.tx_queue tx.hash tx }

/-- The `for tx in block.transactions.values()` loop of
`end_state_for_block`. -/
def applyTxList (execCode : String → Storage → Storage) :
    WorldState → List Transaction → Except Err WorldState
  | s, [] => .ok s
  | s, tx :: rest => do
    applyTxList execCode (← apply_transaction execCode s tx) rest

/-- `BlockChain.end_state_for_block`, with an explicit recursion-depth
fuel.  The dict access `self.blocks[block.prev_block_hash]` raises KeyError
when the parent hash is unknown, the missing-ancestor condition. -/
def end_state_for_block (execCode : String → Storage → Storage) :
    Nat → BlockChain → Block → Except Err WorldState
  | 0, _, _ => .error .outOfFuel
  | fuel + 1, c, b =>
    if b.hash = genesis_block.hash then .ok genesis_world_state
    else
      match dictLookup c.blocks b.prev_block_hash with
      | none => .error (.missingAncestor b.prev_block_hash)
      | some parent => do
        let s ← end_state_for_block execCode fuel c parent
        applyTxList execCode s (b.transactions.map Prod.snd)

/-- `BlockChain.end_state_signature`. -/
def end_state_signature (execCode : String → Storage → Storage)
    (fuel : Nat) (c : BlockChain) (b : Block) : Except Err String :=
  (end_state_for_block execCode fuel c b).map WorldState.signature

/-- `BlockChain.is_block_valid`, with fuel for the ancestor recursion.  A
missing or invalid parent yields `false`; an exception while replaying the
transactions of the block itself propagates. -/
def is_block_valid (execCode : String → Storage → Storage) :
    Nat → BlockChain → Block → Except Err Bool
  | 0, _, _ => .error .outOfFuel
  | fuel + 1, c, b =>
    if b.hash = genesis_block.hash then .ok true
    else
      match dictLookup c.blocks b.prev_block_hash with
      | none => .ok false
      | some parent => do
        let v ← is_block_valid execCode fuel c parent
        if v then do
          let sig ← end_state_signature execCode (fuel + 1) c b
          .ok (decide (sig = b.end_state_signature))
        else .ok false

/-- `BlockChain.add_block`: reject (print and return, leaving the engine
untouched) when invalid, insert keyed by the block hash otherwise. -/
def add_block (execCode : String → Storage → Storage) (fuel : Nat)
    (c : BlockChain) (b : Block) : Except Err BlockChain := do
  let v ← is_block_valid execCode fuel c b
  if v then .ok { c with blocks := dictInsert c.blocks b.hash b }
  else .ok c

/-- `BlockChain.find_block_by`: first block value satisfying the predicate,
in dict iteration order. -/
def find_block_by (c : BlockChain) (f : Block → Bool) : Option Block :=
  (c.blocks.map Prod.snd).find? f

/-- The `while True` successor walk of `last_block`, with fuel. -/
def lastBlockGo (c : BlockChain) : Nat → Block → Block
  | 0, current => current
  | fuel + 1, current =>
    match find_block_by c (fun b => b.prev_block_hash = current.hash) with
    | none => current
    | some nb => lastBlockGo c fuel nb

/-- `BlockChain.last_block`. -/
def last_block (fuel : Nat) (c : BlockChain) : Block :=
  lastBlockGo c fuel genesis_block

/-- The throwaway block that `mine_new_block` builds first, only to compute
the end state signature. -/
def mineCandidate (fuel : Nat) (c : BlockChain) : Block :=
  ⟨c.tx_queue, (last_block fuel c).hash, "REPLACE_ME"⟩

/-- `BlockChain.mine_new_block`.  The engine state is threaded explicitly:
the returned BlockChain is what the caller observes in `self` after the
call, so on an exception the unchanged input chain is returned alongside
the error, exactly as the Python mutations (the block insert inside
`add_block` and the queue reset) happen only after the signature
computation has succeeded. -/
def mine_new_block (execCode : String → Storage → Storage) (fuel : Nat)
    (c : BlockChain) : BlockChain × Except Err Block :=
  match end_state_signature execCode fuel c (mineCandidate fuel c) with
  | .error e => (c, .error e)
  | .ok sig =>
    let block : Block := ⟨c.tx_queue, (last_block fuel c).hash, sig⟩
    match add_block execCode fuel c block with
    | .error e => (c, .error e)
    | .ok c1 => ({ c1 with tx_queue := [] }, .ok block)

/-! ## Heap model of `apply_transaction`

Python account objects live on a heap and the world state dict maps each
address to a reference.  `apply_transaction` first rebinds its `state`
parameter to `copy.deepcopy(state)` and then mutates account objects in
place (`sender_account.balance -= tx.amount`, the storage mutation done by
`exec`); the claim that the caller's state is never observably changed is
about this reference structure, so it is settled on the explicit heap
embedding below.  (Python deepcopy preserves aliasing inside the copied
structure; the copy here duplicates shared objects instead, which cannot be
observed through the original references the claim is about.) -/

/-- The object heap: cell `r` holds `cells[r]`. -/
structure Heap where
  cells : List Account
deriving DecidableEq

def defaultAccount : Account := ⟨"", 0, 0, none, [], none⟩

def Heap.get (h : Heap) (r : Nat) : Account := h.cells.getD r defaultAccount

def Heap.set (h : Heap) (r : Nat) (a : Account) : Heap := ⟨h.cells.set r a⟩

/-- Allocate a fresh cell, returning its reference. -/
def Heap.alloc (h : Heap) (a : Account) : Heap × Nat :=
  (⟨h.cells ++ [a]⟩, h.cells.length)

/-- A world state as the caller holds it: a dict from address to account
reference. -/
abbrev WSRef := List (String × Nat)

/-- `copy.deepcopy` on the accounts dict: every account object is copied to
a fresh cell. -/
def deepcopyAccounts (h : Heap) : WSRef → Heap × WSRef
  | [] => (h, [])
  | (k, r) :: rest =>
    let (h1, r1) := h.alloc (h.get r)
    let (h2, rest1) := deepcopyAccounts h1 rest
    (h2, (k, r1) :: rest1)

/-- `WorldState.signature` read through the heap. -/
def signatureRef (h : Heap) (ws : WSRef) : String :=
  String.intercalate "\n" (ws.map (fun p => (h.get p.2).str))

/-- `BlockChain.apply_transaction` on the heap model, line for line: the
deep copy, the sender checks, contract creation, receiver auto-creation,
the in-place balance mutations and the in-place storage mutation performed
by the contract call.  Returns the heap as left by the call together with
the result. -/
def applyTransactionRef (execCode : String → Storage → Storage)
    (h0 : Heap) (ws : WSRef) (tx : Transaction) : Heap × Except Err WSRef :=
  match deepcopyAccounts h0 ws with
  | (h, state) =>
    match dictLookup state tx.sender_addr with
    | none => (h, .error .unknownSender)
    | some senderRef =>
      let sender_account := h.get senderRef
      if tx.nonce ≠ sender_account.nonce then (h, .error .nonceMismatch)
      else if sender_account.balance < tx.amount then
        (h, .error .insufficientBalance)
      else
        match tx.receiver_addr with
        | none =>
          match tx.data with
          | none => (h, .error .missingContractCode)
          | some d =>
            match h.alloc ⟨sha256hex d, 0, 0, some d, [], some tx.hash⟩ with
            | (h1, newRef) => (h1, .ok (dictInsert state (sha256hex d) newRef))
        | some raddr =>
          match
            (if dictContains state raddr then (h, state)
             else
               match h.alloc ⟨raddr, 0, 0, none, [], some tx.hash⟩ with
               | (h1, r) => (h1, dictInsert state raddr r)) with
          | (h, state) =>
            let h := h.set senderRef
              { sender_account with
                  balance := sender_account.balance - tx.amount }
            match dictLookup state raddr with
            | none => (h, .error .keyError)
            | some receiverRef =>
              let receiver_account := h.get receiverRef
              let h := h.set receiverRef
                { receiver_account with
                    balance := receiver_account.balance + tx.amount }
              match (h.get receiverRef).code with
              | none => (h, .ok state)
              | some c =>
                let ra := h.get receiverRef
                (h.set receiverRef { ra with storage := execCode c ra.storage },
                 .ok state)

/-! ## Statement vocabulary and concrete instances used by the claims -/

/-- The structural account equality the specification speaks about: equal
address, nonce, balance, code and storage (`creation_tx_hash` is not part
of the account contents the signature claim enumerates). -/
def accountContentsEq (a b : Account) : Prop :=
  a.address = b.address ∧ a.nonce = b.nonce ∧ a.balance = b.balance ∧
    a.code = b.code ∧ a.storage = b.storage

instance (a b : Account) : Decidable (accountContentsEq a b) := by
  unfold accountContentsEq; infer_instance

/-- Structural equality of two world states: the same addresses are mapped
to accounts with equal contents, independent of construction order. -/
def stateStructEq (s1 s2 : WorldState) : Prop :=
  ∀ addr : String,
    Option.Rel accountContentsEq
      (dictLookup s1.accounts addr) (dictLookup s2.accounts addr)

/-- Every account reference of the dict is a live heap cell. -/
def wsValid (h : Heap) (ws : WSRef) : Bool :=
  ws.all (fun p => p.2 < h.cells.length)

/-- The total balance of a world state, summed over all accounts. -/
def sumBalances (l : List (String × Account)) : Int :=
  (l.map (fun p => p.2.balance)).sum

/-- A trivial contract-execution collaborator, used to instantiate the
theorems on concrete inputs. -/
def exec0 : String → Storage → Storage := fun _ s => s

def c1AccountA : Account := ⟨"a", 0, 1, none, [], none⟩

def c1AccountB : Account := ⟨"b", 0, 2, none, [], none⟩

/-- Two accounts inserted a-then-b. -/
def c1StateAB : WorldState := ⟨[("a", c1AccountA), ("b", c1AccountB)]⟩

/-- The same two accounts inserted b-then-a. -/
def c1StateBA : WorldState := ⟨[("b", c1AccountB), ("a", c1AccountA)]⟩

def c1W1 : WorldState := ⟨[("k1", ⟨"a", 0, 1, none, [], none⟩)]⟩

def c1W2 : WorldState := ⟨[("k2", ⟨"a", 0, 1, none, [], some "t"⟩)]⟩

def c2Heap : Heap := ⟨[⟨"0xdeadbeef", 0, 1000, none, [], none⟩]⟩

def c2Ws : WSRef := [("0xdeadbeef", 0)]

def c2Tx : Transaction := ⟨"0xdeadbeef", some "bob", 0, 5, none⟩

def c3T1 : Transaction := ⟨"a", some "b", 0, 1, none⟩

def c3T2 : Transaction := ⟨"a", some "b", 1, 1, none⟩

def c4Block : Block := ⟨[], "nope", "sig"⟩

/-- The single genesis account. -/
def gAccount : Account := ⟨ROOT_ACCOUNT_ADDR, 0, 1000, none, [], none⟩

def c6TxEmpty : Transaction := ⟨ROOT_ACCOUNT_ADDR, none, 0, 0, some ""⟩

def c6TxGood : Transaction := ⟨ROOT_ACCOUNT_ADDR, none, 0, 0, some "somecode"⟩

def c7Tx : Transaction := ⟨ROOT_ACCOUNT_ADDR, some "bob", 0, 5, none⟩

def c8Addr : String := sha256hex "c"

/-- A state whose only account sits at the address that contract creation
derives from the payload "c". -/
def c8State : WorldState := ⟨[(c8Addr, ⟨c8Addr, 1, 5, none, [], none⟩)]⟩

def c8Tx : Transaction := ⟨c8Addr, none, 1, 0, some "c"⟩

def c8WTx : Transaction := ⟨ROOT_ACCOUNT_ADDR, some "bob", 0, 3, none⟩

def c9Tx : Transaction := ⟨ROOT_ACCOUNT_ADDR, some ROOT_ACCOUNT_ADDR, 0, 7, none⟩

/-- An invalid successor of genesis, present in the block set of
`c10Chain` below. -/
def c10Bad : Block := ⟨[], genesis_block.hash, "bogus"⟩

def c10Tx : Transaction := ⟨ROOT_ACCOUNT_ADDR, some "carol", 0, 5, none⟩

/-- A chain whose tip is the invalid block `c10Bad` and whose queue holds
one pending transaction. -/
def c10Chain : BlockChain :=
  ⟨[(genesis_block.hash, genesis_block), (c10Bad.hash, c10Bad)],
   [(c10Tx.hash, c10Tx)]⟩

def w10Block : Block := ⟨[], genesis_block.hash, genesis_world_state.signature⟩

def w10Chain : BlockChain :=
  ⟨dictInsert BlockChain.init.blocks w10Block.hash w10Block, []⟩

/-! ## Dictionary lemmas -/

theorem dictLookup_cons {α : Type} (k0 : String) (v0 : α)
    (rest : List (String × α)) (key : String) :
    dictLookup ((k0, v0) :: rest) key =
      if k0 = key then some v0 else dictLookup rest key := rfl

theorem dictUpdate_cons {α : Type} (k0 : String) (v0 : α)
    (rest : List (String × α)) (key : String) (f : α → α) :
    dictUpdate ((k0, v0) :: rest) key f =
      (if k0 = key then (k0, f v0) else (k0, v0)) :: dictUpdate rest key f := by
  unfold dictUpdate
  by_cases hk : k0 = key <;> simp [hk]

theorem dictReplace_cons {α : Type} (k0 : String) (v0 : α)
    (rest : List (String × α)) (key : String) (v : α) :
    dictReplace ((k0, v0) :: rest) key v =
      (if k0 = key then (key, v) else (k0, v0)) :: dictReplace rest key v := by
  unfold dictReplace
  by_cases hk : k0 = key <;> simp [hk]

theorem dictLookup_mem {α : Type} {l : List (String × α)} {k : String} {v : α}
    (h : dictLookup l k = some v) : (k, v) ∈ l := by
  induction l with
  | nil => simp [dictLookup] at h
  | cons p rest ih =>
    obtain ⟨k0, v0⟩ := p
    rw [dictLookup_cons] at h
    by_cases hk : k0 = k
    · rw [if_pos hk] at h
      cases h
      subst hk
      exact List.mem_cons_self _ _
    · rw [if_neg hk] at h
      exact List.mem_cons_of_mem _ (ih h)

theorem dictLookup_eq_none_iff {α : Type} {l : List (String × α)} {k : String} :
    dictLookup l k = none ↔ k ∉ l.map Prod.fst := by
  induction l with
  | nil => simp [dictLookup]
  | cons p rest ih =>
    obtain ⟨k0, v0⟩ := p
    rw [dictLookup_cons]
    by_cases hk : k0 = k
    · subst hk; simp
    · rw [if_neg hk]
      simp only [List.map_cons, List.mem_cons, not_or, ih]
      constructor
      · exact fun h => ⟨fun hh => hk hh.symm, h⟩
      · exact fun h => h.2

theorem dictLookup_update_self {α : Type} (l : List (String × α)) (k : String)
    (f : α → α) : dictLookup (dictUpdate l k f) k = (dictLookup l k).map f := by
  induction l with
  | nil => rfl
  | cons p rest ih =>
    obtain ⟨k0, v0⟩ := p
    rw [dictUpdate_cons, dictLookup_cons]
    by_cases hk : k0 = k
    · rw [if_pos hk, dictLookup_cons, if_pos hk, if_pos hk]
      rfl
    · rw [if_neg hk, dictLookup_cons, if_neg hk, if_neg hk]
      exact ih

theorem dictLookup_update_ne {α : Type} (l : List (String × α)) (k : String)
    (f : α → α) (k' : String) (h : k' ≠ k) :
    dictLookup (dictUpdate l k f) k' = dictLookup l k' := by
  induction l with
  | nil => rfl
  | cons p rest ih =>
    obtain ⟨k0, v0⟩ := p
    rw [dictUpdate_cons, dictLookup_cons]
    by_cases hk : k0 = k
    · have hk' : ¬ k0 = k' := fun hh => h (hk ▸ hh ▸ rfl)
      rw [if_pos hk, dictLookup_cons, if_neg hk', if_neg hk']
      exact ih
    · rw [if_neg hk, dictLookup_cons]
      by_cases hk' : k0 = k'
      · rw [if_pos hk', if_pos hk']
      · rw [if_neg hk', if_neg hk']
        exact ih

theorem dictUpdate_keys {α : Type} (l : List (String × α)) (k : String)
    (f : α → α) : (dictUpdate l k f).map Prod.fst = l.map Prod.fst := by
  induction l with
  | nil => rfl
  | cons p rest ih =>
    obtain ⟨k0, v0⟩ := p
    rw [dictUpdate_cons]
    by_cases hk : k0 = k
    · rw [if_pos hk]; simpa using ih
    · rw [if_neg hk]; simpa using ih

theorem dictUpdate_eq_of_not_mem {α : Type} {l : List (String × α)}
    {k : String} (h : k ∉ l.map Prod.fst) (f : α → α) :
    dictUpdate l k f = l := by
  induction l with
  | nil => rfl
  | cons p rest ih =>
    obtain ⟨k0, v0⟩ := p
    simp only [List.map_cons, List.mem_cons, not_or] at h
    rw [dictUpdate_cons, if_neg (fun hh => h.1 hh.symm), ih h.2]

theorem dictLookup_append_of_some {α : Type} {l1 : List (String × α)}
    {k : String} {v : α} (h : dictLookup l1 k = some v)
    (l2 : List (String × α)) : dictLookup (l1 ++ l2) k = some v := by
  induction l1 with
  | nil => simp [dictLookup] at h
  | cons p rest ih =>
    obtain ⟨k0, v0⟩ := p
    rw [dictLookup_cons] at h
    rw [List.cons_append, dictLookup_cons]
    by_cases hk : k0 = k
    · rw [if_pos hk] at h ⊢; exact h
    · rw [if_neg hk] at h ⊢; exact ih h

theorem dictLookup_append_of_none {α : Type} {l1 : List (String × α)}
    {k : String} (h : dictLookup l1 k = none) (l2 : List (String × α)) :
    dictLookup (l1 ++ l2) k = dictLookup l2 k := by
  induction l1 with
  | nil => rfl
  | cons p rest ih =>
    obtain ⟨k0, v0⟩ := p
    rw [dictLookup_cons] at h
    rw [List.cons_append, dictLookup_cons]
    by_cases hk : k0 = k
    · rw [if_pos hk] at h; cases h
    · rw [if_neg hk] at h ⊢; exact ih h

theorem dictLookup_replace_self {α : Type} {l : List (String × α)}
    {k : String} {w : α} (h : dictLookup l k = some w) (v : α) :
    dictLookup (dictReplace l k v) k = some v := by
  induction l with
  | nil => simp [dictLookup] at h
  | cons p rest ih =>
    obtain ⟨k0, v0⟩ := p
    rw [dictLookup_cons] at h
    rw [dictReplace_cons]
    by_cases hk : k0 = k
    · rw [if_pos hk, dictLookup_cons, if_pos rfl]
    · rw [if_neg hk] at h
      rw [if_neg hk, dictLookup_cons, if_neg hk]
      exact ih h

theorem dictLookup_replace_ne {α : Type} (l : List (String × α))
    (k : String) (v : α) (k' : String) (h : k' ≠ k) :
    dictLookup (dictReplace l k v) k' = dictLookup l k' := by
  induction l with
  | nil => rfl
  | cons p rest ih =>
    obtain ⟨k0, v0⟩ := p
    rw [dictReplace_cons, dictLookup_cons]
    by_cases hk : k0 = k
    · rw [if_pos hk, dictLookup_cons, if_neg (fun hh : k = k' => h hh.symm),
        if_neg (fun hh : k0 = k' => h (hk ▸ hh).symm)]
      exact ih
    · rw [if_neg hk, dictLookup_cons]
      by_cases hk' : k0 = k'
      · rw [if_pos hk', if_pos hk']
      · rw [if_neg hk', if_neg hk']
        exact ih

theorem dictContains_iff_lookup {α : Type} {l : List (String × α)}
    {k : String} : dictContains l k = true ↔ ∃ v, dictLookup l k = some v := by
  unfold dictContains
  cases hl : dictLookup l k <;> simp

theorem dictLookup_insert_self {α : Type} (l : List (String × α))
    (k : String) (v : α) : dictLookup (dictInsert l k v) k = some v := by
  unfold dictInsert
  by_cases hc : dictContains l k = true
  · rw [if_pos hc]
    obtain ⟨w, hw⟩ := dictContains_iff_lookup.mp hc
    exact dictLookup_replace_self hw v
  · rw [if_neg hc]
    have hn : dictLookup l k = none := by
      cases hl : dictLookup l k with
      | none => rfl
      | some w => exact absurd (dictContains_iff_lookup.mpr ⟨w, hl⟩) hc
    rw [dictLookup_append_of_none hn, dictLookup_cons, if_pos rfl]

theorem dictLookup_insert_ne {α : Type} (l : List (String × α))
    (k : String) (v : α) (k' : String) (h : k' ≠ k) :
    dictLookup (dictInsert l k v) k' = dictLookup l k' := by
  unfold dictInsert
  by_cases hc : dictContains l k = true
  · rw [if_pos hc]
    exact dictLookup_replace_ne l k v k' h
  · rw [if_neg hc]
    cases hl : dictLookup l k' with
    | none =>
      rw [dictLookup_append_of_none hl, dictLookup_cons,
        if_neg (fun hh : k = k' => h hh.symm)]
      rfl
    | some w => exact dictLookup_append_of_some hl _

theorem dictInsert_not_contains {α : Type} {l : List (String × α)}
    {key : String} (h : dictContains l key = false) (v : α) :
    dictInsert l key v = l ++ [(key, v)] := by
  unfold dictInsert
  rw [if_neg (by rw [h]; exact Bool.false_ne_true)]

/-- Lookups observed through a projection that the update function
preserves are unchanged at every key. -/
theorem dictLookup_update_map {α β : Type} (l : List (String × α))
    (k : String) (f : α → α) (g : α → β) (hf : ∀ a, g (f a) = g a)
    (k' : String) :
    (dictLookup (dictUpdate l k f) k').map g = (dictLookup l k').map g := by
  by_cases hk : k' = k
  · subst hk
    rw [dictLookup_update_self]
    cases dictLookup l k' <;> simp [hf]
  · rw [dictLookup_update_ne _ _ _ _ hk]

theorem except_bind_ok {ε α β : Type} (a : α) (f : α → Except ε β) :
    ((Except.ok a : Except ε α) >>= f) = f a := rfl

theorem except_bind_error {ε α β : Type} (e : ε) (f : α → Except ε β) :
    ((Except.error e : Except ε α) >>= f) = Except.error e := rfl

/-! ## Balance accounting lemmas -/

theorem sumBalances_nil : sumBalances [] = 0 := rfl

theorem sumBalances_cons (p : String × Account) (rest : List (String × Account)) :
    sumBalances (p :: rest) = p.2.balance + sumBalances rest := by
  simp [sumBalances]

theorem sumBalances_append_single (l : List (String × Account))
    (p : String × Account) :
    sumBalances (l ++ [p]) = sumBalances l + p.2.balance := by
  simp [sumBalances]

theorem sumBalances_update_of_balance_eq (l : List (String × Account))
    (k : String) (f : Account → Account)
    (hf : ∀ a, (f a).balance = a.balance) :
    sumBalances (dictUpdate l k f) = sumBalances l := by
  induction l with
  | nil => rfl
  | cons p rest ih =>
    obtain ⟨k0, v0⟩ := p
    rw [dictUpdate_cons]
    by_cases hk : k0 = k
    · rw [if_pos hk, sumBalances_cons, sumBalances_cons, hf, ih]
    · rw [if_neg hk, sumBalances_cons, sumBalances_cons, ih]

theorem sumBalances_update {l : List (String × Account)} {k : String}
    {v : Account} (hnd : (l.map Prod.fst).Nodup)
    (hl : dictLookup l k = some v) (f : Account → Account) :
    sumBalances (dictUpdate l k f) =
      sumBalances l - v.balance + (f v).balance := by
  induction l with
  | nil => simp [dictLookup] at hl
  | cons p rest ih =>
    obtain ⟨k0, v0⟩ := p
    simp only [List.map_cons, List.nodup_cons] at hnd
    rw [dictLookup_cons] at hl
    rw [dictUpdate_cons]
    by_cases hk : k0 = k
    · rw [if_pos hk] at hl
      cases hl
      rw [if_pos hk, sumBalances_cons, sumBalances_cons,
        dictUpdate_eq_of_not_mem (hk ▸ hnd.1) f]
      ring
    · rw [if_neg hk] at hl
      rw [if_neg hk, sumBalances_cons, sumBalances_cons, ih hnd.2 hl]
      ring

/-- `Account.__str__` depends only on the five content fields. -/
theorem Account.str_congr {a b : Account} (h : accountContentsEq a b) :
    a.str = b.str := by
  obtain ⟨h1, h2, h3, h4, h5⟩ := h
  unfold Account.str
  rw [h1, h2, h3, h4, h5]

theorem map_str_congr {l1 l2 : List (String × Account)}
    (h : List.Forall₂ (fun p q => accountContentsEq p.2 q.2) l1 l2) :
    l1.map (fun p => p.2.str) = l2.map (fun p => p.2.str) := by
  induction h with
  | nil => rfl
  | cons hpq _ ih => simp only [List.map_cons, Account.str_congr hpq, ih]

/-! ## C1: determinism of the world state signature -/

/-- C1 (counterexample): two WorldStates that are structurally equal (the
same addresses mapped to accounts with equal address, nonce, balance, code
and storage) but built in different insertion orders produce different
signatures, because `WorldState.__str__` joins the accounts in dict
insertion order rather than a canonical order. -/
theorem c1_counterexample :
    stateStructEq c1StateAB c1StateBA ∧
      c1StateAB.signature ≠ c1StateBA.signature := by
  constructor
  · intro addr
    show Option.Rel accountContentsEq
      (dictLookup [("a", c1AccountA), ("b", c1AccountB)] addr)
      (dictLookup [("b", c1AccountB), ("a", c1AccountA)] addr)
    rw [dictLookup_cons, dictLookup_cons, dictLookup_cons, dictLookup_cons]
    by_cases h1 : ("a" : String) = addr
    · have h2 : ¬ ("b" : String) = addr := by rw [← h1]; decide
      rw [if_pos h1, if_neg h2, if_pos h1]
      exact Option.Rel.some (by decide)
    · by_cases h2 : ("b" : String) = addr
      · rw [if_neg h1, if_pos h2, if_pos h2]
        exact Option.Rel.some (by decide)
      · rw [if_neg h1, if_neg h2, if_neg h2, if_neg h1]
        exact Option.Rel.none
  · decide

/-- C1 (amended): the signature is a deterministic function of the account
sequence in dict iteration order: two WorldStates whose account sequences
are pointwise equal in contents (address, nonce, balance, code, storage —
dict keys and creation_tx_hash are irrelevant) yield identical signatures.
Structurally equal states in different insertion orders may differ. -/
theorem c1_signature_of_iteration_order (s1 s2 : WorldState)
    (h : List.Forall₂ (fun p q => accountContentsEq p.2 q.2)
      s1.accounts s2.accounts) :
    s1.signature = s2.signature := by
  unfold WorldState.signature WorldState.str
  rw [map_str_congr h]

/-- C1 (witness): two one-account states differing in dict key and
creation_tx_hash but with equal account contents have equal signatures. -/
theorem c1_witness :
    List.Forall₂ (fun p q => accountContentsEq p.2 q.2)
        c1W1.accounts c1W2.accounts ∧
      c1W1.signature = c1W2.signature :=
  ⟨List.Forall₂.cons (by decide) List.Forall₂.nil,
   c1_signature_of_iteration_order c1W1 c1W2
     (List.Forall₂.cons (by decide) List.Forall₂.nil)⟩

/-! ## C3: transaction hashing -/

/-- C3 (counterexample): two transactions that differ only in nonce have
the same serialization, hence the same hash, because `Transaction.__str__`
formats only sender_addr, receiver_addr, amount and data. -/
theorem c3_counterexample :
    c3T1.nonce ≠ c3T2.nonce ∧ c3T1.str = c3T2.str ∧ c3T1.hash = c3T2.hash := by
  decide

/-- C3 (amended): `Transaction.hash` is deterministic and derived only from
sender_addr, receiver_addr, amount and data; the nonce is excluded from the
serialization, so transactions that agree on those four fields hash equal
whatever their nonces. -/
theorem c3_hash_ignores_nonce (t1 t2 : Transaction)
    (hs : t1.sender_addr = t2.sender_addr)
    (hr : t1.receiver_addr = t2.receiver_addr)
    (ha : t1.amount = t2.amount) (hd : t1.data = t2.data) :
    t1.hash = t2.hash := by
  unfold Transaction.hash Transaction.str
  rw [hs, hr, ha, hd]

/-- C3 (witness): the amended determinism at the concrete pair. -/
theorem c3_witness :
    (c3T1.sender_addr = c3T2.sender_addr ∧
      c3T1.receiver_addr = c3T2.receiver_addr ∧
      c3T1.amount = c3T2.amount ∧ c3T1.data = c3T2.data) ∧
    c3T1.hash = c3T2.hash :=
  ⟨by decide,
   c3_hash_ignores_nonce c3T1 c3T2 (by decide) (by decide) (by decide)
     (by decide)⟩

/-! ## C4: missing ancestor handling -/

/-- C4: for every non-genesis block whose parent hash is absent from the
known block set, `end_state_for_block` fails with the missing-ancestor
condition (the KeyError on the blocks dict) and the failure surfaces in
`is_block_valid` as a plain `false` verdict rather than an exception. -/
theorem c4_missing_ancestor (execCode : String → Storage → Storage)
    (fuel : Nat) (c : BlockChain) (b : Block)
    (h1 : b.hash ≠ genesis_block.hash)
    (h2 : dictLookup c.blocks b.prev_block_hash = none) :
    end_state_for_block execCode (fuel + 1) c b =
        .error (.missingAncestor b.prev_block_hash) ∧
      is_block_valid execCode (fuel + 1) c b = .ok false := by
  constructor
  · simp [end_state_for_block, h1, h2]
  · simp [is_block_valid, h1, h2]

/-- C4 (witness): a block pointing at the unknown parent hash "nope". -/
theorem c4_witness :
    (c4Block.hash ≠ genesis_block.hash ∧
      dictLookup BlockChain.init.blocks c4Block.prev_block_hash = none) ∧
    (end_state_for_block exec0 1 BlockChain.init c4Block =
        .error (.missingAncestor c4Block.prev_block_hash) ∧
      is_block_valid exec0 1 BlockChain.init c4Block = .ok false) :=
  ⟨⟨by decide, by decide⟩,
   c4_missing_ancestor exec0 0 BlockChain.init c4Block (by decide) (by decide)⟩

/-! ## C5: the add_block validity gate -/

/-- C5: `add_block` accepts a candidate block exactly when `is_block_valid`
holds: on acceptance the block is inserted keyed by its own hash and the
transaction queue is untouched, on rejection the whole engine state is
returned unmodified, and an exception raised inside validation propagates
with no modification either. -/
theorem c5_add_block_validity_gate (execCode : String → Storage → Storage)
    (fuel : Nat) (c : BlockChain) (b : Block) :
    (is_block_valid execCode fuel c b = .ok true →
      add_block execCode fuel c b =
          .ok { c with blocks := dictInsert c.blocks b.hash b } ∧
        dictLookup (dictInsert c.blocks b.hash b) b.hash = some b) ∧
    (is_block_valid execCode fuel c b = .ok false →
      add_block execCode fuel c b = .ok c) ∧
    (∀ e, is_block_valid execCode fuel c b = .error e →
      add_block execCode fuel c b = .error e) := by
  refine ⟨fun hv => ⟨?_, dictLookup_insert_self _ _ _⟩, fun hv => ?_,
    fun e hv => ?_⟩ <;>
  · simp only [add_block, hv]
    rfl

/-- C5 (witness): re-adding the genesis block to the fresh chain. -/
theorem c5_witness :
    is_block_valid exec0 1 BlockChain.init genesis_block = .ok true ∧
      (add_block exec0 1 BlockChain.init genesis_block =
          .ok { BlockChain.init with
                  blocks := dictInsert BlockChain.init.blocks
                    genesis_block.hash genesis_block } ∧
        dictLookup
            (dictInsert BlockChain.init.blocks genesis_block.hash genesis_block)
            genesis_block.hash = some genesis_block) :=
  ⟨by decide,
   (c5_add_block_validity_gate exec0 1 BlockChain.init genesis_block).1
     (by decide)⟩

/-! ## C6: contract creation -/

/-- C6 (amended): with the sender present, nonce matching and balance
sufficient, a receiverless transaction requires `data` to be present (not
None): `data = None` fails with the missing-contract-code condition, while
any present payload — the empty string included — is accepted; on success
the returned state is the input state with the account at address
`sha256(data)` set to the fresh contract (nonce 0, balance 0, code = data,
empty storage, creation_tx_hash = tx.hash()): appended as a new account
when that address is fresh, overwriting an existing account at that address
otherwise, and no balance is transferred. -/
theorem c6_contract_creation (execCode : String → Storage → Storage)
    (state : WorldState) (tx : Transaction) (sa : Account)
    (hs : dictLookup state.accounts tx.sender_addr = some sa)
    (hn : tx.nonce = sa.nonce) (hb : tx.amount ≤ sa.balance)
    (hr : tx.receiver_addr = none) :
    (tx.data = none →
      apply_transaction execCode state tx = .error .missingContractCode) ∧
    (∀ d, tx.data = some d →
      apply_transaction execCode state tx =
        .ok ⟨dictInsert state.accounts (sha256hex d)
          ⟨sha256hex d, 0, 0, some d, [], some tx.hash⟩⟩) := by
  constructor
  · intro hd
    simp only [apply_transaction, hs, hr, hd]
    rw [if_neg (not_not_intro hn), if_neg (not_lt.mpr hb)]
  · intro d hd
    simp only [apply_transaction, hs, hr, hd]
    rw [if_neg (not_not_intro hn), if_neg (not_lt.mpr hb)]

/-- C6 (counterexample): the empty string is accepted as contract code —
the source only rejects `data is None` — so a creation with `data = ""`
succeeds and creates an account, where the claim says it must fail with
MissingContractCode. -/
theorem c6_counterexample :
    c6TxEmpty.data = some "" ∧
    apply_transaction exec0 genesis_world_state c6TxEmpty =
      .ok ⟨genesis_world_state.accounts ++
        [(sha256hex "", ⟨sha256hex "", 0, 0, some "", [], some c6TxEmpty.hash⟩)]⟩ := by
  constructor
  · rfl
  · decide

/-- C6 (witness): creating a contract from the genesis state with a
non-empty payload. -/
theorem c6_witness :
    (dictLookup genesis_world_state.accounts c6TxGood.sender_addr =
        some gAccount ∧
      c6TxGood.nonce = gAccount.nonce ∧ c6TxGood.amount ≤ gAccount.balance ∧
      c6TxGood.receiver_addr = none ∧ c6TxGood.data = some "somecode") ∧
    apply_transaction exec0 genesis_world_state c6TxGood =
      .ok ⟨dictInsert genesis_world_state.accounts (sha256hex "somecode")
        ⟨sha256hex "somecode", 0, 0, some "somecode", [], some c6TxGood.hash⟩⟩ :=
  ⟨⟨by decide, by decide, by decide, by decide, by decide⟩,
   (c6_contract_creation exec0 genesis_world_state c6TxGood gAccount
       (by decide) (by decide) (by decide) (by decide)).2 "somecode" (by decide)⟩

/-! ## C9: self transfer -/

/-- C9: a transfer from a non-contract account to itself, with matching
nonce and amount within balance, succeeds and leaves the account balance
unchanged: the debit mutates the account object, and the credit is applied
to the same object read back after the debit, netting to zero. -/
theorem c9_self_transfer (execCode : String → Storage → Storage)
    (state : WorldState) (tx : Transaction) (sa : Account) (x : String)
    (hsx : tx.sender_addr = x) (hr : tx.receiver_addr = some x)
    (hs : dictLookup state.accounts x = some sa)
    (hcode : sa.code = none)
    (hn : tx.nonce = sa.nonce) (hb : tx.amount ≤ sa.balance) :
    (apply_transaction execCode state tx).map
        (fun s2 => (dictLookup s2.accounts x).map Account.balance) =
      .ok (some sa.balance) := by
  subst hsx
  have hc : dictContains state.accounts tx.sender_addr = true :=
    dictContains_iff_lookup.mpr ⟨sa, hs⟩
  simp only [apply_transaction, hs, hr]
  rw [if_neg (not_not_intro hn), if_neg (not_lt.mpr hb), if_pos hc,
    dictLookup_update_self, hs]
  simp only [Option.map_some']
  rw [hcode]
  simp only [Except.map]
  rw [dictLookup_update_self, dictLookup_update_self, hs]
  simp only [Option.map_some', Account.balance]
  rw [sub_add_cancel]

/-- C9 (witness): the root account sending 7 to itself from genesis. -/
theorem c9_witness :
    (c9Tx.sender_addr = ROOT_ACCOUNT_ADDR ∧
      c9Tx.receiver_addr = some ROOT_ACCOUNT_ADDR ∧
      dictLookup genesis_world_state.accounts ROOT_ACCOUNT_ADDR =
        some gAccount ∧
      gAccount.code = none ∧ c9Tx.nonce = gAccount.nonce ∧
      c9Tx.amount ≤ gAccount.balance) ∧
    (apply_transaction exec0 genesis_world_state c9Tx).map
        (fun s2 => (dictLookup s2.accounts ROOT_ACCOUNT_ADDR).map
          Account.balance) =
      .ok (some gAccount.balance) :=
  ⟨⟨by decide, by decide, by decide, by decide, by decide, by decide⟩,
   c9_self_transfer exec0 genesis_world_state c9Tx gAccount ROOT_ACCOUNT_ADDR
     (by decide) (by decide) (by decide) (by decide) (by decide) (by decide)⟩

/-! ## C8: sender nonce across apply_transaction -/

/-- C8 (counterexample): a contract creation whose derived contract
address `sha256(data)` coincides with the sender address overwrites the
sender account with the fresh contract, so the sender nonce observably
changes from 1 to 0 on a successful application. -/
theorem c8_counterexample :
    (dictLookup c8State.accounts c8Tx.sender_addr).map Account.nonce =
        some 1 ∧
      (apply_transaction exec0 c8State c8Tx).map
          (fun s2 => (dictLookup s2.accounts c8Tx.sender_addr).map
            Account.nonce) =
        .ok (some 0) := by
  constructor <;> decide

/-- C8 (amended): a successful `apply_transaction` leaves the sender nonce
unchanged — no code path increments it — except in the one corner where a
contract creation derives a contract address equal to the sender address
and overwrites the sender account wholesale. -/
theorem c8_nonce_preservation (execCode : String → Storage → Storage)
    (state : WorldState) (tx : Transaction) (s2 : WorldState)
    (happ : apply_transaction execCode state tx = .ok s2)
    (hguard : ∀ d, tx.receiver_addr = none → tx.data = some d →
      sha256hex d ≠ tx.sender_addr) :
    (dictLookup s2.accounts tx.sender_addr).map Account.nonce =
      (dictLookup state.accounts tx.sender_addr).map Account.nonce := by
  simp only [apply_transaction] at happ
  split at happ
  next => exact absurd happ (by simp)
  next sa hs =>
    split at happ
    next => exact absurd happ (by simp)
    next hn =>
      split at happ
      next => exact absurd happ (by simp)
      next hb =>
        split at happ
        next hrnone =>
          split at happ
          next => exact absurd happ (by simp)
          next d hd =>
            injection happ with h2
            subst h2
            show (dictLookup (dictInsert state.accounts (sha256hex d)
                ⟨sha256hex d, 0, 0, some d, [], some tx.hash⟩)
                tx.sender_addr).map Account.nonce = _
            rw [dictLookup_insert_ne _ _ _ _
              (Ne.symm (hguard d hrnone hd))]
        next raddr hraddr =>
          split at happ
          next => exact absurd happ (by simp)
          next receiver hrecv =>
            split at happ
            next hcode =>
              injection happ with h2
              subst h2
              show (dictLookup (dictUpdate (dictUpdate
                  (if dictContains state.accounts raddr = true then
                    state.accounts
                  else dictInsert state.accounts raddr
                    ⟨raddr, 0, 0, none, [], some tx.hash⟩)
                  tx.sender_addr
                  (fun a => { a with balance := a.balance - tx.amount }))
                  raddr
                  (fun a => { a with balance := a.balance + tx.amount }))
                  tx.sender_addr).map Account.nonce = _
              rw [dictLookup_update_map _ raddr
                  (fun a => { a with balance := a.balance + tx.amount })
                  Account.nonce (fun a => rfl) tx.sender_addr,
                dictLookup_update_map _ tx.sender_addr
                  (fun a => { a with balance := a.balance - tx.amount })
                  Account.nonce (fun a => rfl) tx.sender_addr]
              by_cases hcont : dictContains state.accounts raddr = true
              · rw [if_pos hcont]
              · rw [if_neg hcont,
                  dictInsert_not_contains (Bool.not_eq_true _ ▸ hcont) _,
                  dictLookup_append_of_some hs, hs]
            next c hcode =>
              injection happ with h2
              subst h2
              show (dictLookup (dictUpdate (dictUpdate (dictUpdate
                  (if dictContains state.accounts raddr = true then
                    state.accounts
                  else dictInsert state.accounts raddr
                    ⟨raddr, 0, 0, none, [], some tx.hash⟩)
                  tx.sender_addr
                  (fun a => { a with balance := a.balance - tx.amount }))
                  raddr
                  (fun a => { a with balance := a.balance + tx.amount }))
                  raddr
                  (fun a => { a with storage := execCode c a.storage }))
                  tx.sender_addr).map Account.nonce = _
              rw [dictLookup_update_map _ raddr
                  (fun a => { a with storage := execCode c a.storage })
                  Account.nonce (fun a => rfl) tx.sender_addr,
                dictLookup_update_map _ raddr
                  (fun a => { a with balance := a.balance + tx.amount })
                  Account.nonce (fun a => rfl) tx.sender_addr,
                dictLookup_update_map _ tx.sender_addr
                  (fun a => { a with balance := a.balance - tx.amount })
                  Account.nonce (fun a => rfl) tx.sender_addr]
              by_cases hcont : dictContains state.accounts raddr = true
              · rw [if_pos hcont]
              · rw [if_neg hcont,
                  dictInsert_not_contains (Bool.not_eq_true _ ▸ hcont) _,
                  dictLookup_append_of_some hs, hs]

/-- C8 (witness): an ordinary transfer from genesis preserves the sender
nonce. -/
theorem c8_witness :
    (apply_transaction exec0 genesis_world_state c8WTx =
        .ok ⟨[(ROOT_ACCOUNT_ADDR, { gAccount with balance := 997 }),
              ("bob", ⟨"bob", 0, 3, none, [], some c8WTx.hash⟩)]⟩) ∧
    (dictLookup
        (WorldState.mk
          [(ROOT_ACCOUNT_ADDR, { gAccount with balance := 997 }),
           ("bob", ⟨"bob", 0, 3, none, [], some c8WTx.hash⟩)]).accounts
        c8WTx.sender_addr).map Account.nonce =
      (dictLookup genesis_world_state.accounts c8WTx.sender_addr).map
        Account.nonce :=
  ⟨by decide,
   c8_nonce_preservation exec0 genesis_world_state c8WTx
     ⟨[(ROOT_ACCOUNT_ADDR, { gAccount with balance := 997 }),
       ("bob", ⟨"bob", 0, 3, none, [], some c8WTx.hash⟩)]⟩
     (by decide) (fun d hr _ => by simp [c8WTx] at hr)⟩

/-! ## C7: balance conservation on transfers -/

/-- C7: a transfer of amount `a` between distinct sender and receiver, from
a state with unique addresses, a present sender, matching nonce and
sufficient balance, succeeds; in the resulting state the sender balance has
decreased by exactly `a`, the receiver balance has increased by exactly `a`
over its input balance (0 when the receiver did not yet exist), and the
total balance summed over all accounts is unchanged. -/
theorem c7_balance_conservation (execCode : String → Storage → Storage)
    (state : WorldState) (tx : Transaction) (sa : Account) (y : String)
    (hnd : (state.accounts.map Prod.fst).Nodup)
    (hs : dictLookup state.accounts tx.sender_addr = some sa)
    (hr : tx.receiver_addr = some y) (hxy : y ≠ tx.sender_addr)
    (hn : tx.nonce = sa.nonce) (hb : tx.amount ≤ sa.balance) :
    (apply_transaction execCode state tx).map
        (fun s2 =>
          ((dictLookup s2.accounts tx.sender_addr).map Account.balance,
            (dictLookup s2.accounts y).map Account.balance,
            sumBalances s2.accounts)) =
      .ok (some (sa.balance - tx.amount),
        some ((dictLookup state.accounts y).elim 0 Account.balance
          + tx.amount),
        sumBalances state.accounts) := by
  simp only [apply_transaction, hs, hr]
  rw [if_neg (not_not_intro hn), if_neg (not_lt.mpr hb)]
  by_cases hcont : dictContains state.accounts y = true
  · obtain ⟨ra, hra⟩ := dictContains_iff_lookup.mp hcont
    simp only [if_pos hcont, dictLookup_update_ne _ _ _ _ hxy, hra]
    have h1 : (dictLookup (dictUpdate (dictUpdate state.accounts
        tx.sender_addr (fun a => { a with balance := a.balance - tx.amount }))
        y (fun a => { a with balance := a.balance + tx.amount }))
        tx.sender_addr).map Account.balance = some (sa.balance - tx.amount) := by
      rw [dictLookup_update_ne _ _ _ _ (Ne.symm hxy),
        dictLookup_update_self, hs]
      rfl
    have h2 : (dictLookup (dictUpdate (dictUpdate state.accounts
        tx.sender_addr (fun a => { a with balance := a.balance - tx.amount }))
        y (fun a => { a with balance := a.balance + tx.amount }))
        y).map Account.balance = some (ra.balance + tx.amount) := by
      rw [dictLookup_update_self, dictLookup_update_ne _ _ _ _ hxy, hra]
      rfl
    have hnd2 : ((dictUpdate state.accounts tx.sender_addr
        (fun a => { a with balance := a.balance - tx.amount })).map
          Prod.fst).Nodup := by
      rw [dictUpdate_keys]; exact hnd
    have hA2y : dictLookup (dictUpdate state.accounts tx.sender_addr
        (fun a => { a with balance := a.balance - tx.amount })) y =
          some ra := by
      rw [dictLookup_update_ne _ _ _ _ hxy]; exact hra
    have h3 : sumBalances (dictUpdate (dictUpdate state.accounts
        tx.sender_addr (fun a => { a with balance := a.balance - tx.amount }))
        y (fun a => { a with balance := a.balance + tx.amount })) =
        sumBalances state.accounts := by
      rw [sumBalances_update hnd2 hA2y, sumBalances_update hnd hs]
      show sumBalances state.accounts - sa.balance + (sa.balance - tx.amount)
          - ra.balance + (ra.balance + tx.amount) = sumBalances state.accounts
      ring
    cases hcode : ra.code with
    | none =>
      simp only [Except.map, h1, h2, h3]
      rfl
    | some c =>
      simp only [Except.map,
        dictLookup_update_map _ y
          (fun a => { a with storage := execCode c a.storage })
          Account.balance (fun a => rfl) tx.sender_addr,
        dictLookup_update_map _ y
          (fun a => { a with storage := execCode c a.storage })
          Account.balance (fun a => rfl) y,
        sumBalances_update_of_balance_eq _ y
          (fun a => { a with storage := execCode c a.storage })
          (fun a => rfl),
        h1, h2, h3]
      rfl
  · have hnone : dictLookup state.accounts y = none := by
      cases hl : dictLookup state.accounts y with
      | none => rfl
      | some w => exact absurd (dictContains_iff_lookup.mpr ⟨w, hl⟩) hcont
    have hcf : dictContains state.accounts y = false := by
      revert hcont; cases dictContains state.accounts y <;> simp
    have hymem : y ∉ state.accounts.map Prod.fst :=
      dictLookup_eq_none_iff.mp hnone
    rw [if_neg hcont, dictInsert_not_contains hcf]
    have hA1s : dictLookup (state.accounts ++
        [(y, ⟨y, 0, 0, none, [], some tx.hash⟩)]) tx.sender_addr =
          some sa := dictLookup_append_of_some hs _
    have hA1y : dictLookup (state.accounts ++
        [(y, (⟨y, 0, 0, none, [], some tx.hash⟩ : Account))]) y =
          some ⟨y, 0, 0, none, [], some tx.hash⟩ := by
      rw [dictLookup_append_of_none hnone, dictLookup_cons, if_pos rfl]
    have hnd1 : ((state.accounts ++
        [(y, (⟨y, 0, 0, none, [], some tx.hash⟩ : Account))]).map
          Prod.fst).Nodup := by
      rw [List.map_append]
      refine List.nodup_append.mpr ⟨hnd, List.nodup_singleton _, ?_⟩
      intro a ha hmem
      simp only [List.map_cons, List.map_nil, List.mem_singleton] at hmem
      subst hmem
      exact hymem ha
    have hA2y : dictLookup (dictUpdate (state.accounts ++
        [(y, (⟨y, 0, 0, none, [], some tx.hash⟩ : Account))])
        tx.sender_addr (fun a => { a with balance := a.balance - tx.amount }))
        y = some ⟨y, 0, 0, none, [], some tx.hash⟩ := by
      rw [dictLookup_update_ne _ _ _ _ hxy]; exact hA1y
    simp only [hA2y]
    have h1 : (dictLookup (dictUpdate (dictUpdate (state.accounts ++
        [(y, (⟨y, 0, 0, none, [], some tx.hash⟩ : Account))])
        tx.sender_addr (fun a => { a with balance := a.balance - tx.amount }))
        y (fun a => { a with balance := a.balance + tx.amount }))
        tx.sender_addr).map Account.balance = some (sa.balance - tx.amount) := by
      rw [dictLookup_update_ne _ _ _ _ (Ne.symm hxy),
        dictLookup_update_self, hA1s]
      rfl
    have h2 : (dictLookup (dictUpdate (dictUpdate (state.accounts ++
        [(y, (⟨y, 0, 0, none, [], some tx.hash⟩ : Account))])
        tx.sender_addr (fun a => { a with balance := a.balance - tx.amount }))
        y (fun a => { a with balance := a.balance + tx.amount }))
        y).map Account.balance = some (0 + tx.amount) := by
      rw [dictLookup_update_self, hA2y]
      rfl
    have hnd2 : ((dictUpdate (state.accounts ++
        [(y, (⟨y, 0, 0, none, [], some tx.hash⟩ : Account))])
        tx.sender_addr
        (fun a => { a with balance := a.balance - tx.amount })).map
          Prod.fst).Nodup := by
      rw [dictUpdate_keys]; exact hnd1
    have h3 : sumBalances (dictUpdate (dictUpdate (state.accounts ++
        [(y, (⟨y, 0, 0, none, [], some tx.hash⟩ : Account))])
        tx.sender_addr (fun a => { a with balance := a.balance - tx.amount }))
        y (fun a => { a with balance := a.balance + tx.amount })) =
        sumBalances state.accounts := by
      rw [sumBalances_update hnd2 hA2y, sumBalances_update hnd1 hA1s,
        sumBalances_append_single]
      show sumBalances state.accounts + 0 - sa.balance
          + (sa.balance - tx.amount) - 0 + (0 + tx.amount) =
        sumBalances state.accounts
      ring
    simp only [Except.map, h1, h2, h3, hnone, Option.elim, zero_add]

/-- C7 (witness): the root account sending 5 to the fresh address "bob"
from the genesis state. -/
theorem c7_witness :
    ((genesis_world_state.accounts.map Prod.fst).Nodup ∧
      dictLookup genesis_world_state.accounts c7Tx.sender_addr =
        some gAccount ∧
      c7Tx.receiver_addr = some "bob" ∧ "bob" ≠ c7Tx.sender_addr ∧
      c7Tx.nonce = gAccount.nonce ∧ c7Tx.amount ≤ gAccount.balance) ∧
    (apply_transaction exec0 genesis_world_state c7Tx).map
        (fun s2 =>
          ((dictLookup s2.accounts c7Tx.sender_addr).map Account.balance,
            (dictLookup s2.accounts "bob").map Account.balance,
            sumBalances s2.accounts)) =
      .ok (some (gAccount.balance - c7Tx.amount),
        some ((dictLookup genesis_world_state.accounts "bob").elim 0
            Account.balance + c7Tx.amount),
        sumBalances genesis_world_state.accounts) :=
  ⟨⟨by decide, by decide, by decide, by decide, by decide, by decide⟩,
   c7_balance_conservation exec0 genesis_world_state c7Tx gAccount "bob"
     (by decide) (by decide) (by decide) (by decide) (by decide) (by decide)⟩

/-! ## C10: mining atomicity -/

/-- C10 (amended): if applying the queued transactions fails while
computing the candidate end-state signature, the failure propagates out of
`mine_new_block` and the engine (block set and transaction queue) is
returned unchanged; when the signature computation succeeds the queue is
cleared after `add_block` runs, whether or not the block was actually
added: the mined block is in the block set when `is_block_valid` accepted
it, and the block set is unchanged — with the queue cleared all the same —
when validation rejected it. -/
theorem c10_mine_atomicity (execCode : String → Storage → Storage)
    (fuel : Nat) (c : BlockChain) :
    (∀ e, end_state_signature execCode fuel c (mineCandidate fuel c) =
        .error e →
      mine_new_block execCode fuel c = (c, .error e)) ∧
    (∀ c1 b, mine_new_block execCode fuel c = (c1, .ok b) →
      c1.tx_queue = [] ∧
      ((is_block_valid execCode fuel c b = .ok true ∧
          dictLookup c1.blocks b.hash = some b) ∨
        (is_block_valid execCode fuel c b = .ok false ∧
          c1.blocks = c.blocks))) := by
  constructor
  · intro e he
    simp only [mine_new_block, he]
  · intro c1 b hmine
    simp only [mine_new_block] at hmine
    split at hmine
    next e hsig => exact absurd hmine (by simp)
    next sig hsig =>
      split at hmine
      next e hab => exact absurd hmine (by simp)
      next c2 hab =>
        injection hmine with hm1 hm2
        injection hm2 with hm2
        subst hm1
        subst hm2
        refine ⟨rfl, ?_⟩
        cases hv : is_block_valid execCode fuel c
            ⟨c.tx_queue, (last_block fuel c).hash, sig⟩ with
        | error e =>
          rw [add_block, hv, except_bind_error] at hab
          exact absurd hab (by simp)
        | ok v =>
          rw [add_block, hv, except_bind_ok] at hab
          cases v with
          | true =>
            rw [if_pos rfl] at hab
            injection hab with hab
            subst hab
            exact Or.inl ⟨rfl, dictLookup_insert_self _ _ _⟩
          | false =>
            rw [if_neg (by exact Bool.false_ne_true)] at hab
            injection hab with hab
            subst hab
            exact Or.inr ⟨rfl, rfl⟩

/-- C10 (counterexample): on a chain whose tip is an invalid block, mining
succeeds in computing the signature, `add_block` rejects the mined block,
and the transaction queue is cleared anyway: the queue went from non-empty
to empty while the block set is unchanged, so the queue is not cleared
"only after the block has been added". -/
theorem c10_counterexample :
    ((mine_new_block exec0 4 c10Chain).2).toOption.isSome = true ∧
      c10Chain.tx_queue ≠ [] ∧
      (mine_new_block exec0 4 c10Chain).1.tx_queue = [] ∧
      (mine_new_block exec0 4 c10Chain).1.blocks = c10Chain.blocks := by
  refine ⟨?_, ?_, ?_, ?_⟩ <;> decide

/-- C10 (witness): mining on the fresh chain adds the mined block and
clears the queue. -/
theorem c10_witness :
    mine_new_block exec0 3 BlockChain.init = (w10Chain, .ok w10Block) ∧
    (w10Chain.tx_queue = [] ∧
      ((is_block_valid exec0 3 BlockChain.init w10Block = .ok true ∧
          dictLookup w10Chain.blocks w10Block.hash = some w10Block) ∨
        (is_block_valid exec0 3 BlockChain.init w10Block = .ok false ∧
          w10Chain.blocks = BlockChain.init.blocks))) :=
  ⟨by decide,
   (c10_mine_atomicity exec0 3 BlockChain.init).2 w10Chain w10Block
     (by decide)⟩

/-! ## Heap lemmas for the non-mutation claim -/

theorem mem_dictInsert {α : Type} {l : List (String × α)} {k : String}
    {v : α} {p : String × α} (hp : p ∈ dictInsert l k v) :
    p ∈ l ∨ p.2 = v := by
  unfold dictInsert at hp
  by_cases hc : dictContains l k = true
  · rw [if_pos hc] at hp
    unfold dictReplace at hp
    obtain ⟨q, hq, heq⟩ := List.mem_map.mp hp
    by_cases hqk : q.1 = k
    · rw [if_pos hqk] at heq
      right; rw [← heq]
    · rw [if_neg hqk] at heq
      left; rw [← heq]; exact hq
  · rw [if_neg hc] at hp
    rcases List.mem_append.mp hp with h | h
    · left; exact h
    · right
      simp only [List.mem_singleton] at h
      rw [h]

theorem getD_take {α : Type} (l : List α) (n r : Nat) (d : α) (hr : r < n) :
    (l.take n).getD r d = l.getD r d := by
  induction l generalizing n r with
  | nil => simp
  | cons x xs ih =>
    cases n with
    | zero => omega
    | succ n =>
      cases r with
      | zero => simp
      | succ r =>
        simp only [List.take_succ_cons, List.getD_cons_succ]
        exact ih n r (by omega)

theorem take_set_of_le {α : Type} (l : List α) (i : Nat) (a : α) (n : Nat)
    (h : n ≤ i) : (l.set i a).take n = l.take n := by
  induction l generalizing i n with
  | nil => simp
  | cons x xs ih =>
    cases i with
    | zero =>
      cases n with
      | zero => simp
      | succ n => omega
    | succ i =>
      cases n with
      | zero => simp
      | succ n =>
        simp only [List.set_cons_succ, List.take_succ_cons]
        rw [ih i n (by omega)]

theorem length_le_of_take_eq {h0 h : Heap}
    (ht : h.cells.take h0.cells.length = h0.cells) :
    h0.cells.length ≤ h.cells.length := by
  have hlen := congrArg List.length ht
  rw [List.length_take] at hlen
  rcases Nat.le_total h0.cells.length h.cells.length with hle | hle
  · exact hle
  · rw [Nat.min_eq_right hle] at hlen
    omega

theorem heap_get_eq_of_take {h0 h : Heap}
    (ht : h.cells.take h0.cells.length = h0.cells) {r : Nat}
    (hr : r < h0.cells.length) : h.get r = h0.get r := by
  show h.cells.getD r defaultAccount = h0.cells.getD r defaultAccount
  rw [← getD_take h.cells h0.cells.length r defaultAccount hr, ht]

theorem pre_alloc {h0 h : Heap}
    (hp : h.cells.take h0.cells.length = h0.cells) (a : Account) :
    (h.alloc a).1.cells.take h0.cells.length = h0.cells := by
  show (h.cells ++ [a]).take _ = _
  rw [List.take_append_of_le_length (length_le_of_take_eq hp), hp]

theorem pre_set {h0 h : Heap}
    (hp : h.cells.take h0.cells.length = h0.cells) {r : Nat}
    (hr : h0.cells.length ≤ r) (a : Account) :
    (h.set r a).cells.take h0.cells.length = h0.cells := by
  show (h.cells.set r a).take _ = _
  rw [take_set_of_le _ _ _ _ hr, hp]

theorem deepcopyAccounts_cons (h : Heap) (k : String) (r : Nat)
    (rest : WSRef) :
    deepcopyAccounts h ((k, r) :: rest) =
      ((deepcopyAccounts ⟨h.cells ++ [h.get r]⟩ rest).1,
       (k, h.cells.length) :: (deepcopyAccounts ⟨h.cells ++ [h.get r]⟩ rest).2) :=
  rfl

/-- The deep copy only appends fresh cells and hands out fresh
references. -/
theorem deepcopy_spec (ws : WSRef) (h : Heap) :
    (deepcopyAccounts h ws).1.cells.take h.cells.length = h.cells ∧
      ∀ p ∈ (deepcopyAccounts h ws).2, h.cells.length ≤ p.2 := by
  induction ws generalizing h with
  | nil => exact ⟨List.take_length _, by simp [deepcopyAccounts]⟩
  | cons p rest ih =>
    obtain ⟨k, r⟩ := p
    rw [deepcopyAccounts_cons]
    obtain ⟨iht, ihr⟩ := ih ⟨h.cells ++ [h.get r]⟩
    have hlen : (Heap.mk (h.cells ++ [h.get r])).cells.length =
        h.cells.length + 1 := by simp
    have hle : h.cells.length ≤
        (Heap.mk (h.cells ++ [h.get r])).cells.length := by
      rw [hlen]; omega
    constructor
    · calc
        (deepcopyAccounts ⟨h.cells ++ [h.get r]⟩ rest).1.cells.take
            h.cells.length
          = ((deepcopyAccounts ⟨h.cells ++ [h.get r]⟩ rest).1.cells.take
              (Heap.mk (h.cells ++ [h.get r])).cells.length).take
                h.cells.length := by
            rw [List.take_take, Nat.min_eq_left hle]
        _ = (Heap.mk (h.cells ++ [h.get r])).cells.take h.cells.length := by
            rw [iht]
        _ = h.cells := by
            show (h.cells ++ [h.get r]).take _ = _
            rw [List.take_append_of_le_length le_rfl, List.take_length]
    · intro p hp
      rcases List.mem_cons.mp hp with hh | hh
      · rw [hh]
      · have h2 := ihr p hh
        rw [hlen] at h2
        omega

/-- Whatever branch `apply_transaction` takes — every failure included —
the heap cells that existed before the call are untouched: the deep copy
allocates fresh cells and all in-place mutations hit the copies. -/
theorem applyTransactionRef_take (execCode : String → Storage → Storage)
    (h0 : Heap) (ws : WSRef) (tx : Transaction) :
    (applyTransactionRef execCode h0 ws tx).1.cells.take h0.cells.length =
      h0.cells := by
  rcases hdc : deepcopyAccounts h0 ws with ⟨h1, state1⟩
  have hdc1 : h1.cells.take h0.cells.length = h0.cells := by
    have hh := (deepcopy_spec ws h0).1
    rw [hdc] at hh; exact hh
  have hdcr : ∀ p ∈ state1, h0.cells.length ≤ p.2 := by
    have hh := (deepcopy_spec ws h0).2
    rw [hdc] at hh; exact hh
  simp only [applyTransactionRef, hdc]
  split
  next => exact hdc1
  next senderRef hsl =>
    have hsref : h0.cells.length ≤ senderRef :=
      hdcr _ (dictLookup_mem hsl)
    split
    next => exact hdc1
    next hn =>
      split
      next => exact hdc1
      next hb =>
        split
        next =>
          split
          next => exact hdc1
          next d hd => exact pre_alloc hdc1 _
        next raddr hrcv =>
          by_cases hcont : dictContains state1 raddr = true
          · rw [if_pos hcont]
            split
            next => exact pre_set hdc1 hsref _
            next receiverRef hrl =>
              have hrr : h0.cells.length ≤ receiverRef :=
                hdcr _ (dictLookup_mem hrl)
              split
              next hcode =>
                exact pre_set (pre_set hdc1 hsref _) hrr _
              next cc hcode =>
                exact pre_set (pre_set (pre_set hdc1 hsref _) hrr _) hrr _
          · rw [if_neg hcont]
            split
            next => exact pre_set (pre_alloc hdc1 _) hsref _
            next receiverRef hrl =>
              have hrr : h0.cells.length ≤ receiverRef := by
                rcases mem_dictInsert (dictLookup_mem hrl) with hm | hm
                · exact hdcr _ hm
                · have hm2 : receiverRef = h1.cells.length := hm
                  rw [hm2]
                  exact length_le_of_take_eq hdc1
              split
              next hcode =>
                exact pre_set (pre_set (pre_alloc hdc1 _) hsref _) hrr _
              next cc hcode =>
                exact pre_set (pre_set (pre_set (pre_alloc hdc1 _)
                  hsref _) hrr _) hrr _

/-- A heap extension that preserves the original cells preserves the
signature read through any dict of live references. -/
theorem signatureRef_eq_of_take {h0 h : Heap} {ws : WSRef}
    (ht : h.cells.take h0.cells.length = h0.cells)
    (hv : wsValid h0 ws = true) :
    signatureRef h ws = signatureRef h0 ws := by
  suffices hmap : ∀ l : WSRef, wsValid h0 l = true →
      l.map (fun p => (h.get p.2).str) =
        l.map (fun p => (h0.get p.2).str) by
    unfold signatureRef
    rw [hmap ws hv]
  intro l
  induction l with
  | nil => intro _; rfl
  | cons p rest ih =>
    intro hvl
    simp only [wsValid, List.all_cons, Bool.and_eq_true] at hvl
    simp only [List.map_cons]
    rw [heap_get_eq_of_take ht (of_decide_eq_true hvl.1), ih hvl.2]

/-! ## C2: apply_transaction does not mutate its input -/

/-- C2: on the heap model of Python reference semantics, calling
`apply_transaction` on a state whose account references are live never
changes any cell the caller could observe before the call — succeed or
fail — and in particular the signature of the input state, read through
its references, is identical before and after the call. -/
theorem c2_apply_transaction_non_mutation
    (execCode : String → Storage → Storage) (h0 : Heap) (ws : WSRef)
    (tx : Transaction) (hv : wsValid h0 ws = true) :
    (applyTransactionRef execCode h0 ws tx).1.cells.take h0.cells.length =
        h0.cells ∧
      signatureRef (applyTransactionRef execCode h0 ws tx).1 ws =
        signatureRef h0 ws :=
  ⟨applyTransactionRef_take execCode h0 ws tx,
   signatureRef_eq_of_take (applyTransactionRef_take execCode h0 ws tx) hv⟩

/-- C2 (witness): a transfer out of a one-account heap. -/
theorem c2_witness :
    wsValid c2Heap c2Ws = true ∧
      ((applyTransactionRef exec0 c2Heap c2Ws c2Tx).1.cells.take
          c2Heap.cells.length = c2Heap.cells ∧
        signatureRef (applyTransactionRef exec0 c2Heap c2Ws c2Tx).1 c2Ws =
          signatureRef c2Heap c2Ws) :=
  ⟨by decide,
   c2_apply_transaction_non_mutation exec0 c2Heap c2Ws c2Tx (by decide)⟩

end Pythereum
